import Mathlib

/-!
Verification of the active-learning review-queue subsystem of the
car-img-tagger repository.

The embedded code lives in:
* `src/car_img_tagger/active_learning.py` — uncertainty estimator
  (`probability_entropy`, `margin_confidence`, `compute_uncertainty`) and the
  review selector (`select_for_review`);
* `src/car_img_tagger/auto_tagging.py` — the tagging-time gate
  (`AutoTagger._needs_review`, used by `process_single_image` to set
  `needs_annotation`);
* `src/car_img_tagger/config.py` — `MODEL_CONFIG["active_learning"]`;
* `scripts/build_review_queue.py` — the CLI default for `--max-items`.

Modelling conventions: Python floats are idealised as exact rationals (for the
stored scores, which are only compared and sorted) and the transcendental
entropy computation is carried out over the reals.  Python dict lookups with a
default (`d.get(k, v)`) become `Option.getD`.  `list.sort(key=...,
reverse=True)` is Timsort, a stable sort; it is modelled by a stable insertion
sort (`sortDescBy`) that places ties in their original relative order, which is
extensionally the same function.  The slice `queue[:max_items]` is modelled
with full Python semantics, including negative `max_items` (`pyTake`).
-/

/-- The `uncertainty` sub-record carried on a persisted sample, and equally the
`metrics` dict consumed by `AutoTagger._needs_review`.  Every key may be
absent, hence the `Option` fields. -/
structure UncertaintyRecord where
  entropy : Option ℚ
  margin : Option ℚ
  max_confidence : Option ℚ
deriving DecidableEq

/-- The empty dict `{}` used as the default for a missing sub-record. -/
def emptyRecord : UncertaintyRecord := ⟨none, none, none⟩

/-- A prediction record as consumed by `select_for_review`: only the
`uncertainty` key is read; everything else is opaque identity. -/
structure Sample where
  id : ℕ
  uncertainty : Option UncertaintyRecord
deriving DecidableEq

/-- `sample.get("uncertainty", {}).get("entropy", 0.0)`
(`active_learning.py`, lines 41-42). -/
def entropyOf (s : Sample) : ℚ :=
  ((s.uncertainty.getD emptyRecord).entropy).getD 0

/-- Insert `x` into a list sorted by `key` descending, before the first
element whose key is `≤ key x`.  Earlier-input elements are inserted last by
`sortDescBy`, so ties keep their original relative order, as Python's stable
`list.sort(key=..., reverse=True)` guarantees. -/
def insertDescBy (key : α → ℚ) (x : α) : List α → List α
  | [] => [x]
  | y :: ys => if key y ≤ key x then x :: y :: ys else y :: insertDescBy key x ys

/-- Stable descending sort by `key`; models `list.sort(key=..., reverse=True)`. -/
def sortDescBy (key : α → ℚ) : List α → List α
  | [] => []
  | x :: xs => insertDescBy key x (sortDescBy key xs)

/-- Python's slice `l[:k]` for an `int` bound `k`, including the negative
case (`l[:-m]` drops the last `m` elements). -/
def pyTake (k : ℤ) (l : List α) : List α :=
  l.take (if 0 ≤ k then k.toNat else ((l.length : ℤ) + k).toNat)

/-- The `queue` list built by the loop in `select_for_review`
(`active_learning.py`, lines 39-44): one `(entropy, sample)` pair per input
sample whose entropy passes the threshold, in input order. -/
def reviewQueue (predictions : List Sample) (entropy_threshold : ℚ) :
    List (ℚ × Sample) :=
  (predictions.map (fun s => (entropyOf s, s))).filter
    (fun p => decide (entropy_threshold ≤ p.1))

/-- `select_for_review` (`active_learning.py`, lines 38-46): filter by
`entropy >= entropy_threshold`, stable-sort by entropy descending, slice to
`max_items`, project the samples. -/
def select_for_review (predictions : List Sample) (entropy_threshold : ℚ)
    (max_items : ℤ) : List Sample :=
  (pyTake max_items
      (sortDescBy Prod.fst (reviewQueue predictions entropy_threshold))).map
    Prod.snd

/-- `select_for_review` with `max_items` left to its declared default, which
in the source is `max_items: int = 100`. -/
def select_for_review_default (predictions : List Sample)
    (entropy_threshold : ℚ) : List Sample :=
  select_for_review predictions entropy_threshold 100

/-- The `--max-items` default of `scripts/build_review_queue.py` (line 119). -/
def build_review_queue_default_max_items : ℤ := 200

/-- `np.clip(p, 1e-8, 1.0)` on one entry (`active_learning.py`, line 18). -/
def clip (p : ℚ) : ℚ := min 1 (max (1 / 10 ^ 8) p)

/-- `probability_entropy` (`active_learning.py`, lines 17-19): clamp each
probability to `[1e-8, 1]`, then return `-Σ p·ln p` over the clamped values. -/
noncomputable def probability_entropy (l : List ℚ) : ℝ :=
  -((l.map (fun p => ((clip p : ℚ) : ℝ) * Real.log ((clip p : ℚ) : ℝ))).sum)

/-- `arr.max(initial=init)`: the maximum of `init` and all entries. -/
def maxInitial (init : ℚ) (l : List ℚ) : ℚ := l.foldl max init

/-- `margin_confidence` (`active_learning.py`, lines 22-26): sort descending;
with fewer than two entries return `sorted.max(initial=0.0)`, otherwise
`top1 - top2`. -/
def margin_confidence (l : List ℚ) : ℚ :=
  let sorted_probs := sortDescBy id l
  if sorted_probs.length < 2 then maxInitial 0 sorted_probs
  else sorted_probs.getD 0 0 - sorted_probs.getD 1 0

/-- The `UncertaintyScores` dataclass (`active_learning.py`, lines 10-14). -/
structure UncertaintyScores where
  entropy : ℝ
  margin : ℚ
  max_confidence : ℚ

/-- `compute_uncertainty` (`active_learning.py`, lines 29-35);
`max_confidence` is `probs.max(initial=0.0)`. -/
noncomputable def compute_uncertainty (l : List ℚ) : UncertaintyScores :=
  ⟨probability_entropy l, margin_confidence l, maxInitial 0 l⟩

/-- The `MODEL_CONFIG["active_learning"]` dict shape: both threshold keys may
be absent, since `_needs_review` reads them with `.get` defaults. -/
structure ActiveLearningConfig where
  entropy_threshold : Option ℚ
  margin_threshold : Option ℚ
deriving DecidableEq

/-- `MODEL_CONFIG["active_learning"]` (`config.py`, lines 96-99):
`entropy_threshold = 1.1`, `margin_threshold = 0.25`. -/
def MODEL_CONFIG_active_learning : ActiveLearningConfig :=
  ⟨some (11 / 10), some (1 / 4)⟩

/-- `AutoTagger._needs_review` (`auto_tagging.py`, lines 260-265): flag when
`entropy >= entropy_threshold or margin <= margin_threshold`, with `.get`
defaults `1.1`, `0.25` for the thresholds and `0.0`, `1.0` for the metrics. -/
def needs_review (cfg : ActiveLearningConfig) (metrics : UncertaintyRecord) :
    Bool :=
  let entropy_threshold := cfg.entropy_threshold.getD (11 / 10)
  let margin_threshold := cfg.margin_threshold.getD (1 / 4)
  let entropy := metrics.entropy.getD 0
  let margin := metrics.margin.getD 1
  decide (entropy_threshold ≤ entropy) || decide (margin ≤ margin_threshold)

/-- `review_required = self._needs_review(self.category_uncertainties.get("angles", {}))`
(`auto_tagging.py`, lines 225-226): the value stored as `needs_annotation`. -/
def review_required (cfg : ActiveLearningConfig)
    (angle_unc : Option UncertaintyRecord) : Bool :=
  needs_review cfg (angle_unc.getD emptyRecord)

/-- Concrete samples used at concrete inputs below. -/
def sampleNone : Sample := ⟨0, none⟩

def sampleLow : Sample := ⟨1, some ⟨some (1 / 2), none, none⟩⟩

def sampleMid : Sample := ⟨2, some ⟨some (3 / 2), none, none⟩⟩

def sampleHigh : Sample := ⟨3, some ⟨some 2, none, none⟩⟩

/-! ### Properties of the stable descending sort -/

theorem insertDescBy_perm (key : α → ℚ) (x : α) (l : List α) :
    (insertDescBy key x l).Perm (x :: l) := by
  induction l with
  | nil => rfl
  | cons y ys ih =>
    by_cases h : key y ≤ key x
    · simp [insertDescBy, h]
    · simp only [insertDescBy, if_neg h]
      exact (ih.cons y).trans (List.Perm.swap x y ys)

theorem sortDescBy_perm (key : α → ℚ) (l : List α) :
    (sortDescBy key l).Perm l := by
  induction l with
  | nil => rfl
  | cons x xs ih =>
    exact (insertDescBy_perm key x (sortDescBy key xs)).trans (ih.cons x)

theorem mem_insertDescBy {key : α → ℚ} {x a : α} {l : List α} :
    a ∈ insertDescBy key x l ↔ a = x ∨ a ∈ l := by
  rw [(insertDescBy_perm key x l).mem_iff, List.mem_cons]

theorem insertDescBy_pairwise {key : α → ℚ} {x : α} {l : List α}
    (h : l.Pairwise (fun a b => key b ≤ key a)) :
    (insertDescBy key x l).Pairwise (fun a b => key b ≤ key a) := by
  induction l with
  | nil => simp [insertDescBy]
  | cons y ys ih =>
    rcases List.pairwise_cons.mp h with ⟨hy, hys⟩
    by_cases hxy : key y ≤ key x
    · simp only [insertDescBy, if_pos hxy]
      refine List.pairwise_cons.mpr ⟨?_, h⟩
      intro b hb
      rcases List.mem_cons.mp hb with rfl | hb
      · exact hxy
      · exact (hy b hb).trans hxy
    · simp only [insertDescBy, if_neg hxy]
      refine List.pairwise_cons.mpr ⟨?_, ih hys⟩
      intro b hb
      rcases mem_insertDescBy.mp hb with rfl | hb
      · exact le_of_lt (lt_of_not_le hxy)
      · exact hy b hb

theorem sortDescBy_pairwise (key : α → ℚ) (l : List α) :
    (sortDescBy key l).Pairwise (fun a b => key b ≤ key a) := by
  induction l with
  | nil => simp [sortDescBy]
  | cons x xs ih => exact insertDescBy_pairwise ih

theorem insertDescBy_filter_eq {key : α → ℚ} {x : α} {e : ℚ} (l : List α)
    (hx : key x = e) :
    (insertDescBy key x l).filter (fun a => decide (key a = e)) =
      x :: l.filter (fun a => decide (key a = e)) := by
  induction l with
  | nil => simp [insertDescBy, hx]
  | cons y ys ih =>
    by_cases hxy : key y ≤ key x
    · rw [insertDescBy, if_pos hxy, List.filter_cons_of_pos (by simp [hx])]
    · have hy : ¬ key y = e := fun hye => hxy (le_of_eq (hye.trans hx.symm) )
      rw [insertDescBy, if_neg hxy, List.filter_cons_of_neg (by simp [hy]), ih,
        List.filter_cons_of_neg (by simp [hy])]

theorem insertDescBy_filter_ne {key : α → ℚ} {x : α} {e : ℚ} (l : List α)
    (hx : ¬ key x = e) :
    (insertDescBy key x l).filter (fun a => decide (key a = e)) =
      l.filter (fun a => decide (key a = e)) := by
  induction l with
  | nil => simp [insertDescBy, hx]
  | cons y ys ih =>
    by_cases hxy : key y ≤ key x
    · rw [insertDescBy, if_pos hxy, List.filter_cons_of_neg (by simp [hx])]
    · rw [insertDescBy, if_neg hxy, List.filter_cons, List.filter_cons, ih]

/-- Stability of the sort, as a filter identity: the elements with any fixed
key value appear in the sorted list exactly in their original order. -/
theorem sortDescBy_filter (key : α → ℚ) (l : List α) (e : ℚ) :
    (sortDescBy key l).filter (fun a => decide (key a = e)) =
      l.filter (fun a => decide (key a = e)) := by
  induction l with
  | nil => rfl
  | cons x xs ih =>
    by_cases hx : key x = e
    · rw [sortDescBy, insertDescBy_filter_eq _ hx, ih,
        List.filter_cons_of_pos (by simp [hx])]
    · rw [sortDescBy, insertDescBy_filter_ne _ hx, ih,
        List.filter_cons_of_neg (by simp [hx])]

/-! ### Properties of the review selector -/

theorem pyTake_subset (k : ℤ) (l : List α) : ∀ x ∈ pyTake k l, x ∈ l :=
  fun _ hx => List.take_subset _ l hx

theorem pyTake_sublist (k : ℤ) (l : List α) : (pyTake k l).Sublist l :=
  List.take_sublist _ l

theorem pyTake_of_nonneg {k : ℤ} (hk : 0 ≤ k) (l : List α) :
    pyTake k l = l.take k.toNat := by
  unfold pyTake
  rw [if_pos hk]

theorem mem_reviewQueue {l : List Sample} {t : ℚ} {p : ℚ × Sample}
    (h : p ∈ reviewQueue l t) :
    p.2 ∈ l ∧ p.1 = entropyOf p.2 ∧ t ≤ p.1 := by
  unfold reviewQueue at h
  rcases List.mem_filter.mp h with ⟨hmem, hdec⟩
  rcases List.mem_map.mp hmem with ⟨s, hs, hps⟩
  subst hps
  exact ⟨hs, rfl, of_decide_eq_true hdec⟩

theorem mem_select_for_review {l : List Sample} {t : ℚ} {k : ℤ} {s : Sample}
    (h : s ∈ select_for_review l t k) : s ∈ l ∧ t ≤ entropyOf s := by
  unfold select_for_review at h
  rcases List.mem_map.mp h with ⟨p, hp, hps⟩
  have hsorted := pyTake_subset _ _ _ hp
  have hqueue : p ∈ reviewQueue l t :=
    (sortDescBy_perm Prod.fst (reviewQueue l t)).mem_iff.mp hsorted
  subst hps
  rcases mem_reviewQueue hqueue with ⟨h1, h2, h3⟩
  exact ⟨h1, h2 ▸ h3⟩

/-! ### Claim theorems: the review selector -/

/-- C2: every sample in the list returned by `select_for_review` has
gating-category entropy at or above the threshold, and no input sample with
entropy below the threshold appears in the output. -/
theorem select_for_review_respects_threshold (l : List Sample) (t : ℚ)
    (k : ℤ) :
    (∀ s ∈ select_for_review l t k, t ≤ entropyOf s) ∧
    (∀ s ∈ l, entropyOf s < t → s ∉ select_for_review l t k) := by
  constructor
  · intro s hs
    exact (mem_select_for_review hs).2
  · intro s _ hlt hmem
    exact absurd (mem_select_for_review hmem).2 (not_le.mpr hlt)

theorem select_for_review_respects_threshold_witness :
    entropyOf sampleLow < 1 ∧
      sampleLow ∉ select_for_review [sampleLow, sampleHigh] 1 5 :=
  ⟨by norm_num [entropyOf, sampleLow, emptyRecord],
    (select_for_review_respects_threshold [sampleLow, sampleHigh] 1 5).2
      sampleLow (by simp)
      (by norm_num [entropyOf, sampleLow, emptyRecord])⟩

/-- C1 (amended): a sample with no `uncertainty` sub-record is read back as
entropy `0.0`, so it is excluded from the queue whenever the threshold is
positive (in particular at the default `1.1`); the call never raises.  With a
threshold `≤ 0` such a sample IS admitted (see the counterexample). -/
theorem select_for_review_missing_uncertainty (l : List Sample) (t : ℚ)
    (k : ℤ) (ht : 0 < t) :
    (∀ s : Sample, s.uncertainty = none → entropyOf s = 0) ∧
    ∀ s ∈ select_for_review l t k, s.uncertainty ≠ none := by
  constructor
  · intro s hs
    simp [entropyOf, hs, emptyRecord]
  · intro s hs hnone
    have h2 := (mem_select_for_review hs).2
    have h0 : entropyOf s = 0 := by simp [entropyOf, hnone, emptyRecord]
    rw [h0] at h2
    exact absurd h2 (not_le.mpr ht)

theorem select_for_review_missing_uncertainty_witness :
    (0 : ℚ) < 11 / 10 ∧
      ∀ s ∈ select_for_review [sampleNone, sampleHigh] (11 / 10) 5,
        s.uncertainty ≠ none :=
  ⟨by norm_num,
    (select_for_review_missing_uncertainty [sampleNone, sampleHigh] (11 / 10)
        5 (by norm_num)).2⟩

/-- C1 counterexample: at threshold `0` (a threshold `≤ 0`), a sample whose
record has no `uncertainty` sub-record is returned in the queue, not
excluded. -/
theorem select_for_review_missing_uncertainty_cex :
    select_for_review [sampleNone] 0 1 = [sampleNone] := by decide

/-- C3 counterexample: with the Python slice semantics of `queue[:max_items]`,
a negative cap `k = -1` yields a queue of length `0`, and `0 ≤ -1` is false:
the claimed bound `len(select(samples, θ, k)) ≤ k` fails for negative `k`. -/
theorem select_for_review_cap_cex :
    ¬ (((select_for_review [sampleHigh] 1 (-1)).length : ℤ) ≤ -1) := by decide

/-- C3 (amended): for every non-negative cap `k` the returned list has length
`≤ k`; truncation happens after sorting — the output is exactly the first `k`
entries of the descending-sorted admitted list, and every dropped entry has
entropy `≤` every kept entry. -/
theorem select_for_review_cap (l : List Sample) (t : ℚ) (k : ℤ)
    (hk : 0 ≤ k) :
    ((select_for_review l t k).length : ℤ) ≤ k ∧
    select_for_review l t k =
      ((sortDescBy Prod.fst (reviewQueue l t)).take k.toNat).map Prod.snd ∧
    ∀ a ∈ (sortDescBy Prod.fst (reviewQueue l t)).take k.toNat,
      ∀ b ∈ (sortDescBy Prod.fst (reviewQueue l t)).drop k.toNat,
        b.1 ≤ a.1 := by
  refine ⟨?_, ?_, ?_⟩
  · unfold select_for_review
    rw [List.length_map, pyTake_of_nonneg hk]
    calc ((List.take k.toNat _).length : ℤ)
        ≤ (k.toNat : ℤ) := by exact_mod_cast List.length_take_le _ _
      _ = k := Int.toNat_of_nonneg hk
  · unfold select_for_review
    rw [pyTake_of_nonneg hk]
  · intro a ha b hb
    have hpw := sortDescBy_pairwise Prod.fst (reviewQueue l t)
    rw [← List.take_append_drop k.toNat
      (sortDescBy Prod.fst (reviewQueue l t))] at hpw
    exact (List.pairwise_append.mp hpw).2.2 a ha b hb

theorem select_for_review_cap_witness :
    (0 : ℤ) ≤ 2 ∧
      ((select_for_review [sampleLow, sampleMid, sampleHigh] 1 2).length : ℤ)
        ≤ 2 :=
  ⟨by decide,
    (select_for_review_cap [sampleLow, sampleMid, sampleHigh] 1 2
        (by decide)).1⟩

/-- C9 (amended): the core `select_for_review` defaults `max_items` to `100`,
not `200`; the queue-builder script's `--max-items` CLI flag is what defaults
to `200` (and is always passed explicitly to the core). -/
theorem select_for_review_default_max_items :
    (∀ (l : List Sample) (t : ℚ),
      select_for_review_default l t = select_for_review l t 100 ∧
      (select_for_review_default l t).length ≤ 100) ∧
    build_review_queue_default_max_items = 200 := by
  refine ⟨fun l t => ⟨rfl, ?_⟩, rfl⟩
  unfold select_for_review_default select_for_review
  rw [List.length_map, pyTake_of_nonneg (by norm_num)]
  exact List.length_take_le _ _

/-- C9 counterexample: on a batch of 101 admitted samples, calling the core
without `max_items` returns 100 samples, not the 101 that a default of `200`
would return. -/
theorem select_for_review_default_max_items_cex :
    select_for_review_default (List.replicate 101 sampleHigh) 1 ≠
      select_for_review (List.replicate 101 sampleHigh) 1 200 := by decide

/-! ### Claim theorems: the tagging-time gate -/

/-- C8: at tagging time a sample is flagged `needs_annotation` iff its angle
entropy is `≥ entropy_threshold` OR its margin is `≤ margin_threshold`, and
the configured defaults are `entropy_threshold = 1.1`,
`margin_threshold = 0.25`. -/
theorem review_required_iff (m : UncertaintyRecord) :
    (review_required MODEL_CONFIG_active_learning (some m) = true ↔
      ((11 : ℚ) / 10 ≤ m.entropy.getD 0 ∨ m.margin.getD 1 ≤ 1 / 4)) ∧
    MODEL_CONFIG_active_learning = ⟨some (11 / 10), some (1 / 4)⟩ := by
  constructor
  · simp [review_required, needs_review, MODEL_CONFIG_active_learning]
  · rfl

/-- C10: the tagging-time gate is total on missing metrics — a missing
entropy reads as `0.0` and a missing margin as `1.0`, so an
absent-metrics sample is flagged iff `entropy_threshold ≤ 0` or
`1 ≤ margin_threshold`; under the configured defaults (`1.1`, `0.25`) it is
never flagged, including when the whole angle sub-record is missing. -/
theorem review_required_missing_metrics :
    (∀ cfg : ActiveLearningConfig,
      needs_review cfg emptyRecord = true ↔
        (cfg.entropy_threshold.getD (11 / 10) ≤ 0 ∨
          1 ≤ cfg.margin_threshold.getD (1 / 4))) ∧
    review_required MODEL_CONFIG_active_learning none = false := by
  constructor
  · intro cfg
    simp [needs_review, emptyRecord]
  · norm_num [review_required, needs_review, emptyRecord,
      MODEL_CONFIG_active_learning]

/-! ### Claim theorems: estimator edge cases -/

/-- C5 counterexample: on an empty candidate set neither `probability_entropy`
nor `margin_confidence` fails loudly — both are total and silently return
`0.0` (numpy reduces an empty product/sum to `0.0` and `max(initial=0.0)`
returns the initial value). -/
theorem empty_distribution_cex :
    probability_entropy [] = 0 ∧ margin_confidence [] = 0 := by
  constructor
  · simp [probability_entropy]
  · rfl

/-- C5 (amended): on an empty input all three estimator outputs silently
degrade to `0` — `max_confidence` by its `initial=0.0` default, and `entropy`
and `margin` likewise return `0.0` without raising. -/
theorem compute_uncertainty_empty :
    (compute_uncertainty []).entropy = 0 ∧
    (compute_uncertainty []).margin = 0 ∧
    (compute_uncertainty []).max_confidence = 0 := by
  refine ⟨?_, rfl, rfl⟩
  simp [compute_uncertainty, probability_entropy]

/-! ### Ranking and stability of the selector (C4) -/

theorem filter_map_snd (T : List (ℚ × Sample)) (p : Sample → Bool) :
    (T.map Prod.snd).filter p = (T.filter (fun q => p q.2)).map Prod.snd := by
  rw [List.filter_map]
  rfl

theorem sortDescBy_fst_mem (l : List Sample) (t : ℚ) :
    ∀ q ∈ sortDescBy Prod.fst (reviewQueue l t), q.1 = entropyOf q.2 :=
  fun q hq =>
    (mem_reviewQueue
      ((sortDescBy_perm Prod.fst (reviewQueue l t)).mem_iff.mp hq)).2.1

theorem take_filter_stable_aux (Sq : List (ℚ × Sample)) (m : ℕ) (e : ℚ) :
    ((Sq.take m).filter (fun q => decide (q.1 = e))).map Prod.snd ++
        ((Sq.drop m).filter (fun q => decide (q.1 = e))).map Prod.snd =
      (Sq.filter (fun q => decide (q.1 = e))).map Prod.snd := by
  rw [← List.map_append, ← List.filter_append, List.take_append_drop]

theorem reviewQueue_filter_key (l : List Sample) (t : ℚ) (e : ℚ) :
    ((reviewQueue l t).filter (fun q => decide (q.1 = e))).map Prod.snd =
      (l.filter (fun s => decide (t ≤ entropyOf s))).filter
        (fun s => decide (entropyOf s = e)) := by
  unfold reviewQueue
  rw [List.filter_filter, List.filter_map, List.map_map, List.filter_filter]
  simp [Function.comp_def]

theorem select_stable_gen (l : List Sample) (t : ℚ) (m : ℕ) (e : ℚ) :
    ∃ rest : List Sample,
      ((((sortDescBy Prod.fst (reviewQueue l t)).take m).map Prod.snd).filter
            (fun s => decide (entropyOf s = e))) ++ rest =
        (l.filter (fun s => decide (t ≤ entropyOf s))).filter
          (fun s => decide (entropyOf s = e)) := by
  refine ⟨(((sortDescBy Prod.fst (reviewQueue l t)).drop m).filter
      (fun q => decide (q.1 = e))).map Prod.snd, ?_⟩
  rw [filter_map_snd]
  have hc : (((sortDescBy Prod.fst (reviewQueue l t)).take m).filter
        (fun q => decide (entropyOf q.2 = e))) =
      (((sortDescBy Prod.fst (reviewQueue l t)).take m).filter
        (fun q => decide (q.1 = e))) :=
    List.filter_congr fun q hq => by
      rw [sortDescBy_fst_mem l t q (List.take_subset m _ hq)]
  rw [hc, take_filter_stable_aux, sortDescBy_filter]
  exact reviewQueue_filter_key l t e

/-- C4: the queue returned by `select_for_review` is sorted by entropy
descending (every earlier output position has entropy `≥` every later one),
and the sort is stable: for each entropy value `e`, the output samples with
entropy `e` form an initial segment — in particular in the same relative
order — of the admitted input samples with entropy `e`, in input order. -/
theorem select_for_review_ranking (l : List Sample) (t : ℚ) (k : ℤ) :
    List.Pairwise (fun a b => entropyOf b ≤ entropyOf a)
      (select_for_review l t k) ∧
    ∀ e : ℚ, ∃ rest : List Sample,
      (select_for_review l t k).filter (fun s => decide (entropyOf s = e)) ++
          rest =
        (l.filter (fun s => decide (t ≤ entropyOf s))).filter
          (fun s => decide (entropyOf s = e)) := by
  constructor
  · have hpwS := sortDescBy_pairwise Prod.fst (reviewQueue l t)
    have hpwT := hpwS.sublist
      (pyTake_sublist k (sortDescBy Prod.fst (reviewQueue l t)))
    have hpwT' : (pyTake k (sortDescBy Prod.fst (reviewQueue l t))).Pairwise
        (fun a b => entropyOf b.2 ≤ entropyOf a.2) :=
      hpwT.imp_of_mem fun {a b} ha hb hab => by
        rw [← sortDescBy_fst_mem l t a (pyTake_subset _ _ _ ha),
          ← sortDescBy_fst_mem l t b (pyTake_subset _ _ _ hb)]
        exact hab
    exact List.pairwise_map.mpr hpwT'
  · intro e
    exact select_stable_gen l t _ e

/-! ### The margin metric (C6) -/

/-- C6: `margin_confidence` returns `top1 - top2` of the values sorted
descending; on a single-candidate distribution it returns that candidate's
probability itself; and on values in `[0, 1]` the result lies in `[0, 1]`. -/
theorem margin_confidence_spec (l : List ℚ)
    (h : ∀ q ∈ l, 0 ≤ q ∧ q ≤ 1) :
    (∀ p, l = [p] → margin_confidence l = p) ∧
    (∀ p1 p2 rest, sortDescBy id l = p1 :: p2 :: rest →
      margin_confidence l = p1 - p2) ∧
    0 ≤ margin_confidence l ∧ margin_confidence l ≤ 1 := by
  refine ⟨?_, ?_, ?_⟩
  · intro p hp
    subst hp
    have h0 := (h p (by simp)).1
    simp [margin_confidence, sortDescBy, insertDescBy, maxInitial,
      max_eq_right h0]
  · intro p1 p2 rest hs
    simp [margin_confidence, hs]
  · rcases hsort : sortDescBy id l with _ | ⟨p1, rest1⟩
    · simp [margin_confidence, hsort, maxInitial]
    · rcases rest1 with _ | ⟨p2, rest2⟩
      · have hp1 : p1 ∈ l := (sortDescBy_perm id l).mem_iff.mp
          (hsort ▸ List.mem_singleton_self p1)
        have hb := h p1 hp1
        have hm : margin_confidence l = max 0 p1 := by
          simp [margin_confidence, hsort, maxInitial]
        rw [hm]
        exact ⟨le_max_left 0 p1, max_le (by norm_num) hb.2⟩
      · have hperm := sortDescBy_perm id l
        have hp1 : p1 ∈ l := hperm.mem_iff.mp (hsort ▸ by simp)
        have hp2 : p2 ∈ l := hperm.mem_iff.mp (hsort ▸ by simp)
        have hle : p2 ≤ p1 := by
          have hpw := sortDescBy_pairwise id l
          rw [hsort] at hpw
          exact (List.pairwise_cons.mp hpw).1 p2 (by simp)
        have hm : margin_confidence l = p1 - p2 := by
          simp [margin_confidence, hsort]
        rw [hm]
        constructor
        · linarith
        · have := (h p1 hp1).2
          have := (h p2 hp2).1
          linarith

theorem margin_confidence_spec_witness :
    (∀ q ∈ [(1 : ℚ)], 0 ≤ q ∧ q ≤ 1) ∧ margin_confidence [1] = 1 :=
  ⟨by norm_num, (margin_confidence_spec [1] (by norm_num)).1 1 rfl⟩

/-! ### Entropy bounds (C7): Gibbs' inequality over lists -/

theorem sum_nonpos_of_forall (L : List ℝ) (h : ∀ x ∈ L, x ≤ 0) :
    L.sum ≤ 0 := by
  induction L with
  | nil => simp
  | cons x xs ih =>
    simp only [List.sum_cons]
    have hx := h x (List.mem_cons_self x xs)
    have hxs := ih fun y hy => h y (List.mem_cons_of_mem x hy)
    linarith

theorem sum_map_eq_zero_iff (L : List ℝ) (f : ℝ → ℝ)
    (h : ∀ x ∈ L, 0 ≤ f x) :
    (L.map f).sum = 0 ↔ ∀ x ∈ L, f x = 0 := by
  induction L with
  | nil => simp
  | cons x xs ih =>
    simp only [List.map_cons, List.sum_cons]
    have hx := h x (List.mem_cons_self x xs)
    have hxs : ∀ y ∈ xs, 0 ≤ f y := fun y hy => h y (List.mem_cons_of_mem x hy)
    have hsum : 0 ≤ (xs.map f).sum := by
      apply List.sum_nonneg
      intro y hy
      rcases List.mem_map.mp hy with ⟨z, hz, rfl⟩
      exact hxs z hz
    constructor
    · intro h0
      have hfx : f x = 0 := by linarith
      have hrest : (xs.map f).sum = 0 := by linarith
      intro y hy
      rcases List.mem_cons.mp hy with rfl | hy
      · exact hfx
      · exact ((ih hxs).mp hrest) y hy
    · intro hall
      have hfx := hall x (List.mem_cons_self x xs)
      have hrest := (ih hxs).mpr fun y hy => hall y (List.mem_cons_of_mem x hy)
      rw [hfx, hrest]
      ring

/-- The per-element term of Gibbs' inequality for a distribution over `n`
candidates. -/
noncomputable def gibbsTerm (n : ℕ) (p : ℝ) : ℝ :=
  (n : ℝ)⁻¹ - p + p * Real.log p + p * Real.log n

theorem gibbsTerm_nonneg (n : ℕ) (hn : 0 < n) (p : ℝ) (hp : 0 < p) :
    0 ≤ gibbsTerm n p ∧ (gibbsTerm n p = 0 ↔ p = (n : ℝ)⁻¹) := by
  have hn' : (0 : ℝ) < n := by exact_mod_cast hn
  have hy : (0 : ℝ) < (n : ℝ) * p := by positivity
  have hpp : p * ((n : ℝ) * p)⁻¹ = (n : ℝ)⁻¹ := by
    field_simp
    ring
  have hkey : gibbsTerm n p =
      p * (((n : ℝ) * p)⁻¹ - 1 + Real.log ((n : ℝ) * p)) := by
    unfold gibbsTerm
    rw [Real.log_mul hn'.ne' hp.ne']
    rw [mul_add, mul_sub, hpp]
    ring
  have hg0 : 0 ≤ ((n : ℝ) * p)⁻¹ - 1 + Real.log ((n : ℝ) * p) := by
    have hlog := Real.log_le_sub_one_of_pos (inv_pos.mpr hy)
    rw [Real.log_inv] at hlog
    linarith
  constructor
  · rw [hkey]
    exact mul_nonneg hp.le hg0
  · constructor
    · intro h0
      rw [hkey] at h0
      rcases mul_eq_zero.mp h0 with hc | hc
      · exact absurd hc hp.ne'
      · by_contra hpn
        have hy1 : (n : ℝ) * p ≠ 1 := fun h1 => by
          rw [mul_comm] at h1
          exact hpn (eq_inv_of_mul_eq_one_left h1)
        have hstrict : 0 < ((n : ℝ) * p)⁻¹ - 1 + Real.log ((n : ℝ) * p) := by
          have hlog := Real.log_lt_sub_one_of_pos (x := ((n : ℝ) * p)⁻¹)
            (inv_pos.mpr hy) (by rw [Ne, inv_eq_one]; exact hy1)
          rw [Real.log_inv] at hlog
          linarith
        exact hstrict.ne' hc
    · intro hpe
      subst hpe
      rw [hkey, mul_inv_cancel₀ hn'.ne']
      simp

theorem sum_map_gibbs_decomp (L : List ℝ) (c d : ℝ) :
    (L.map fun p => d - p + p * Real.log p + p * c).sum =
      L.length * d - L.sum + (L.map fun p => p * Real.log p).sum + c * L.sum := by
  induction L with
  | nil => simp
  | cons x xs ih =>
    simp only [List.map_cons, List.sum_cons, List.length_cons]
    rw [ih]
    push_cast
    ring

/-- Gibbs' inequality with the equality case, over a list of positive reals
summing to 1. -/
theorem list_gibbs (L : List ℝ) (hpos : ∀ x ∈ L, 0 < x) (hsum : L.sum = 1) :
    -(L.map fun p => p * Real.log p).sum ≤ Real.log L.length ∧
      (-(L.map fun p => p * Real.log p).sum = Real.log L.length ↔
        ∀ x ∈ L, x = (L.length : ℝ)⁻¹) := by
  have hne : L ≠ [] := by
    rintro rfl
    norm_num at hsum
  have hn : 0 < L.length := List.length_pos.mpr hne
  have hn' : ((L.length : ℕ) : ℝ) ≠ 0 := by
    exact_mod_cast hn.ne'
  have hsumF : (L.map (gibbsTerm L.length)).sum =
      (L.map fun p => p * Real.log p).sum + Real.log L.length := by
    unfold gibbsTerm
    rw [sum_map_gibbs_decomp, hsum, mul_inv_cancel₀ hn']
    ring
  have hFnn : ∀ x ∈ L, 0 ≤ gibbsTerm L.length x := fun x hx =>
    (gibbsTerm_nonneg L.length hn x (hpos x hx)).1
  constructor
  · have h0 : 0 ≤ (L.map (gibbsTerm L.length)).sum := by
      apply List.sum_nonneg
      intro y hy
      rcases List.mem_map.mp hy with ⟨x, hx, rfl⟩
      exact hFnn x hx
    linarith [hsumF]
  · constructor
    · intro heq
      have hzero : (L.map (gibbsTerm L.length)).sum = 0 := by
        rw [hsumF]
        linarith
      have hall := (sum_map_eq_zero_iff L (gibbsTerm L.length) hFnn).mp hzero
      intro x hx
      exact (gibbsTerm_nonneg L.length hn x (hpos x hx)).2.mp (hall x hx)
    · intro hall
      have hzero : (L.map (gibbsTerm L.length)).sum = 0 :=
        (sum_map_eq_zero_iff L (gibbsTerm L.length) hFnn).mpr fun x hx =>
          (gibbsTerm_nonneg L.length hn x (hpos x hx)).2.mpr (hall x hx)
      rw [hsumF] at hzero
      linarith

theorem clip_bounds (p : ℚ) : 1 / 10 ^ 8 ≤ clip p ∧ clip p ≤ 1 := by
  unfold clip
  exact ⟨le_min (by norm_num) (le_max_left _ _), min_le_left _ _⟩

/-- The clamp confines every term of the entropy sum to `(0, 1]`, so each
summand `-p·ln p` is non-negative on ANY input, zeros included. -/
theorem probability_entropy_nonneg (m : List ℚ) :
    0 ≤ probability_entropy m := by
  unfold probability_entropy
  rw [neg_nonneg]
  apply sum_nonpos_of_forall
  intro y hy
  rcases List.mem_map.mp hy with ⟨q, hq, rfl⟩
  have hb := clip_bounds q
  have h0 : (0 : ℝ) < ((clip q : ℚ) : ℝ) := by
    have hq0 : (0 : ℚ) < clip q := lt_of_lt_of_le (by norm_num) hb.1
    exact_mod_cast hq0
  have h1 : ((clip q : ℚ) : ℝ) ≤ 1 := by exact_mod_cast hb.2
  have hlog : Real.log ((clip q : ℚ) : ℝ) ≤ 0 := Real.log_nonpos h0.le h1
  have := mul_le_mul_of_nonneg_left hlog h0.le
  simpa using this

/-- C7 (amended): `probability_entropy` clamps each probability into
`[1e-8, 1]` before taking logarithms and returns `-Σ p·ln p` over the clamped
values; the result is non-negative on every input whatsoever (the clamp puts
each term in `(0, 1]`), and on every distribution whose probabilities already
lie in `[1e-8, 1]` and sum to 1 (so the clamp is the identity) it also
satisfies `entropy ≤ ln n`, with equality at `ln n` iff the distribution is
exactly uniform.  Without the lower restriction the `ln n` bound can fail: clamping
values below `1e-8` adds mass, see the counterexample. -/
theorem probability_entropy_bounds (l : List ℚ)
    (h1 : ∀ q ∈ l, 1 / 10 ^ 8 ≤ q ∧ q ≤ 1) (h2 : l.sum = 1) :
    (∀ m : List ℚ, 0 ≤ probability_entropy m) ∧
    probability_entropy l ≤ Real.log l.length ∧
    (probability_entropy l = Real.log l.length ↔
      ∀ q ∈ l, q = 1 / (l.length : ℚ)) := by
  have hclip : ∀ q ∈ l, clip q = q := by
    intro q hq
    rcases h1 q hq with ⟨ha, hb⟩
    unfold clip
    rw [max_eq_right ha, min_eq_right hb]
  have hrw : probability_entropy l =
      -(((l.map fun q : ℚ => (q : ℝ)).map fun p => p * Real.log p).sum) := by
    unfold probability_entropy
    rw [List.map_map]
    congr 1
    congr 1
    apply List.map_congr_left
    intro q hq
    simp only [Function.comp_apply]
    rw [hclip q hq]
  have hpos : ∀ x ∈ l.map fun q : ℚ => (q : ℝ), 0 < x := by
    intro x hx
    rcases List.mem_map.mp hx with ⟨q, hq, rfl⟩
    have hge := (h1 q hq).1
    have h8 : (0 : ℚ) < 1 / 10 ^ 8 := by norm_num
    exact_mod_cast lt_of_lt_of_le h8 hge
  have hcast : ((l.sum : ℚ) : ℝ) = (l.map fun q : ℚ => (q : ℝ)).sum := by
    simpa using map_list_sum (Rat.castHom ℝ) l
  have hsumR : (l.map fun q : ℚ => (q : ℝ)).sum = 1 := by
    rw [← hcast, h2]
    norm_num
  have hlen : (l.map fun q : ℚ => (q : ℝ)).length = l.length :=
    List.length_map l _
  have hg := list_gibbs _ hpos hsumR
  rw [hlen] at hg
  refine ⟨probability_entropy_nonneg, ?_, ?_⟩
  · rw [hrw]
    exact hg.1
  · rw [hrw, hg.2]
    constructor
    · intro hall q hq
      have hq' := hall (q : ℝ) (List.mem_map_of_mem _ hq)
      have hcast1 : ((1 / (l.length : ℚ) : ℚ) : ℝ) = ((l.length : ℝ))⁻¹ := by
        push_cast
        ring
      apply Rat.cast_injective (α := ℝ)
      rw [hcast1]
      exact hq'
    · intro hall x hx
      rcases List.mem_map.mp hx with ⟨q, hq, rfl⟩
      rw [hall q hq]
      push_cast
      ring

theorem probability_entropy_bounds_witness :
    ((∀ q ∈ [(1 : ℚ) / 2, 1 / 2], 1 / 10 ^ 8 ≤ q ∧ q ≤ 1) ∧
        ([(1 : ℚ) / 2, 1 / 2].sum = 1)) ∧
      (0 ≤ probability_entropy [1 / 2, 1 / 2] ∧
        probability_entropy [1 / 2, 1 / 2] ≤
          Real.log ([(1 : ℚ) / 2, 1 / 2].length)) :=
  ⟨⟨by intro q hq; simp at hq; subst hq; norm_num, by norm_num⟩,
    (probability_entropy_bounds [(1 : ℚ) / 2, 1 / 2]
        (by intro q hq; simp at hq; subst hq; norm_num) (by norm_num)).1
      [1 / 2, 1 / 2],
    (probability_entropy_bounds [(1 : ℚ) / 2, 1 / 2]
        (by intro q hq; simp at hq; subst hq; norm_num) (by norm_num)).2.1⟩

/-- The distribution violating the `entropy ≤ ln n` claim: `10^8` entries of
exactly `1e-8` plus one entry of `0`.  The zero entry clamps up to `1e-8`,
adding mass, and the resulting "entropy" exceeds `ln n`. -/
def badDist : List ℚ := List.replicate (10 ^ 8) (1 / 10 ^ 8) ++ [0]

/-- C7 counterexample: `badDist` is a well-formed distribution (entries in
`[0,1]`, summing to 1) over `n = 10^8 + 1` candidates, yet
`probability_entropy badDist > ln n`.  So the claimed bound
`entropy ≤ ln n` for every well-formed distribution is false. -/
theorem probability_entropy_bounds_cex :
    (∀ q ∈ badDist, 0 ≤ q ∧ q ≤ 1) ∧ badDist.sum = 1 ∧
      Real.log (badDist.length) < probability_entropy badDist := by
  refine ⟨?_, ?_, ?_⟩
  · intro q hq
    rcases List.mem_append.mp hq with hq | hq
    · rw [List.eq_of_mem_replicate hq]
      norm_num
    · simp at hq
      subst hq
      norm_num
  · unfold badDist
    rw [List.sum_append, List.sum_replicate, nsmul_eq_mul]
    push_cast
    norm_num
  · have hlenR : ((badDist.length : ℕ) : ℝ) = (10 : ℝ) ^ 8 + 1 := by
      unfold badDist
      rw [List.length_append, List.length_replicate]
      push_cast
      norm_num
    have hclip1 : clip (1 / 10 ^ 8) = 1 / 10 ^ 8 := by
      unfold clip
      norm_num
    have hclip0 : clip 0 = 1 / 10 ^ 8 := by
      unfold clip
      norm_num
    have hc : (((1 : ℚ) / 10 ^ 8 : ℚ) : ℝ) = ((10 : ℝ) ^ 8)⁻¹ := by
      push_cast
      norm_num
    have hent : probability_entropy badDist =
        ((10 : ℝ) ^ 8 + 1) * (((10 : ℝ) ^ 8)⁻¹ * Real.log ((10 : ℝ) ^ 8)) := by
      unfold probability_entropy badDist
      rw [List.map_append, List.sum_append, List.map_replicate,
        List.sum_replicate]
      simp only [List.map_cons, List.map_nil, List.sum_cons, List.sum_nil,
        hclip1, hclip0]
      rw [nsmul_eq_mul, hc, Real.log_inv]
      push_cast
      ring
    rw [hent, hlenR]
    have h10 : (0 : ℝ) < 10 ^ 8 := by norm_num
    have hlog1 : (1 : ℝ) ≤ Real.log (10 ^ 8) := by
      rw [Real.le_log_iff_exp_le h10]
      have h := Real.exp_one_lt_d9
      norm_num at h ⊢
      linarith
    have hsplit : Real.log ((10 : ℝ) ^ 8 + 1) =
        Real.log ((10 : ℝ) ^ 8) + Real.log (1 + ((10 : ℝ) ^ 8)⁻¹) := by
      rw [← Real.log_mul (by norm_num) (by positivity)]
      congr 1
      field_simp
    have hsmall : Real.log (1 + ((10 : ℝ) ^ 8)⁻¹) < ((10 : ℝ) ^ 8)⁻¹ := by
      have h := Real.log_lt_sub_one_of_pos (x := 1 + ((10 : ℝ) ^ 8)⁻¹)
        (by positivity) (by norm_num)
      linarith
    have hR : ((10 : ℝ) ^ 8 + 1) * (((10 : ℝ) ^ 8)⁻¹ * Real.log ((10 : ℝ) ^ 8)) =
        Real.log ((10 : ℝ) ^ 8) + ((10 : ℝ) ^ 8)⁻¹ * Real.log ((10 : ℝ) ^ 8) := by
      field_simp
      ring
    have hgain : ((10 : ℝ) ^ 8)⁻¹ ≤ ((10 : ℝ) ^ 8)⁻¹ * Real.log ((10 : ℝ) ^ 8) := by
      have := mul_le_mul_of_nonneg_left hlog1 (le_of_lt (inv_pos.mpr h10))
      simpa using this
    rw [hsplit, hR]
    linarith
